import Mathlib

/-!
Verification of the IIS computation of this repository (src/iis.py).

The single source function, get_iis_additive_deletion_method, implements the
additive/deletion filter for computing an Irreducible Inconsistent Set of an
infeasible LP/MIP, on top of the external python-mip library. The solving
engine itself is an external collaborator, so it is embedded here as an
abstract oracle: a function from the variable list and the current constraint
expression list to a solve status. The models, the constraint bookkeeping
(handle-indexed constraint lists, as in mip.ConstrList), and the two phases of
the algorithm are translated from the source line by line; the small surface
of the mip library that the source relies on (fresh-model defaults and
Model.clear) is modelled from the specification of the external interface,
as indicated on each such definition.
-/

set_option autoImplicit false

namespace IIS

/-- Solve statuses, mirroring the mip.OptimizationStatus values that the
source inspects (LOADED, OPTIMAL, FEASIBLE, INFEASIBLE, INT_INFEASIBLE);
OTHER stands for every remaining status of the external solver interface
(ERROR, UNBOUNDED, NO_SOLUTION_FOUND, CUTOFF, ...). -/
inductive Status where
  | LOADED
  | OPTIMAL
  | FEASIBLE
  | INFEASIBLE
  | INT_INFEASIBLE
  | OTHER
  deriving DecidableEq, Repr

/-- The statuses the source treats as success: FEASIBLE or OPTIMAL. -/
def isFeasStatus : Status → Bool
  | Status.FEASIBLE => true
  | Status.OPTIMAL => true
  | _ => false

/-- The statuses the source treats as infeasibility: INFEASIBLE or
INT_INFEASIBLE. -/
def isInfeasStatus : Status → Bool
  | Status.INFEASIBLE => true
  | Status.INT_INFEASIBLE => true
  | _ => false

/-- A status that actually decides feasibility one way or the other. -/
def decisiveStatus (s : Status) : Bool := isFeasStatus s || isInfeasStatus s

/-- Kinds of decision variables, as in mip (CONTINUOUS, INTEGER, BINARY). -/
inductive VarType where
  | CONTINUOUS
  | INTEGER
  | BINARY
  deriving DecidableEq, Repr

/-- A decision variable: name, lower bound, upper bound, kind. These are the
four attributes the source reads when mirroring variables (lines 84-88). -/
structure MipVar where
  name : String
  lb : Rat
  ub : Rat
  var_type : VarType
  deriving DecidableEq, Repr

/-- Search emphasis settings, as in mip.SearchEmphasis. -/
inductive SearchEmphasis where
  | DEFAULT
  | FEASIBILITY
  | OPTIMALITY
  deriving DecidableEq, Repr

/-- An objective: either a constant or some expression. The source only ever
writes the constant zero objective into the auxiliary model (line 82). -/
inductive Objective (C : Type) where
  | const (q : Rat)
  | expr (e : C)
  deriving DecidableEq

/-- A model. Constraint expressions are abstract values of type C (the source
treats them as opaque, only adding and removing them as whole units); each
constraint held by a model is a pair of a numeric handle and its expression,
which embeds the handle identity of mip constraint objects: removal goes by
handle, and re-adding an expression issues a fresh handle. -/
structure MipModel (C : Type) where
  vars : List MipVar
  constrs : List (Nat × C)
  nextId : Nat
  status : Status
  verbose : Nat
  emphasis : SearchEmphasis
  preprocess : Int
  objective : Objective C
  deriving DecidableEq

/-- Modelled from the spec: a fresh model as produced by createModel, before
any explicit configuration. It has no variables, no constraints, a not-yet
solved status, default (non-silent) verbosity, default search emphasis,
automatic presolve, and a constant-zero objective. The mip library providing
this constructor is an external collaborator whose code is not part of this
repository. -/
def freshModel (C : Type) : MipModel C :=
  { vars := []
  , constrs := []
  , nextId := 0
  , status := Status.LOADED
  , verbose := 1
  , emphasis := SearchEmphasis.DEFAULT
  , preprocess := -1
  , objective := Objective.const 0 }

/-- Modelled from the spec: clearModel removes all variables and constraints,
restoring the model to a fresh state for reuse. The mip library providing
Model.clear is an external collaborator whose code is not part of this
repository. -/
def clearModel {C : Type} (_m : MipModel C) : MipModel C := freshModel C

/-- Append a variable to a model (mip Model.add_var with the four attributes
the source passes). -/
def add_var {C : Type} (m : MipModel C) (v : MipVar) : MipModel C :=
  { m with vars := m.vars ++ [v] }

/-- Append a constraint expression to a model, issuing a fresh handle
(mip ConstrList.add / Model.add_constr). -/
def add_constr {C : Type} (m : MipModel C) (e : C) : MipModel C :=
  { m with constrs := m.constrs ++ [(m.nextId, e)], nextId := m.nextId + 1 }

/-- Remove the constraint with the given handle (mip ConstrList.remove on a
single constraint object). -/
def removeConstr {C : Type} (m : MipModel C) (h : Nat) : MipModel C :=
  { m with constrs := m.constrs.filter (fun p => p.1 != h) }

/-- The expression list underlying a handle-indexed constraint list. -/
def exprs {C : Type} (l : List (Nat × C)) : List C := l.map Prod.snd

/-- The handle-indexed constraint list obtained by appending the given
expressions to a model whose handle counter starts at s. -/
def handlesFrom {C : Type} (s : Nat) : List C → List (Nat × C)
  | [] => []
  | c :: l => (s, c) :: handlesFrom (s + 1) l

/-- A solver oracle: given the variable list (names, bounds, kinds) and the
current constraint expression list of a model, report a solve status. This is
the external LP/MIP engine at its interface boundary; the embedding is
deterministic in the constraint sequence, which also reflects that the
auxiliary model mirrors the variable set of the original model exactly. -/
def Solver (C : Type) : Type := List MipVar → List C → Status

/-- One solver invocation recorded by the instrumented run: either the single
possible solve of the original model (line 65) or a solve of the auxiliary
model (lines 96 and 110). -/
inductive SolveEvent (C : Type) where
  | origSolve (cs : List C) (st : Status)
  | auxSolve (cs : List C) (st : Status)
  deriving DecidableEq

/-- Whether an event is a solve of the auxiliary model. -/
def SolveEvent.isAux {C : Type} : SolveEvent C → Bool
  | SolveEvent.auxSolve _ _ => true
  | _ => false

/-- Result of the additive phase: the auxiliary model after the loop, the
final value of the counter i of the source (number of loop iterations that
did not break), and the auxiliary solves performed. -/
structure AdditiveOut (C : Type) where
  aux : MipModel C
  steps : Nat
  events : List (SolveEvent C)
  deriving DecidableEq

/-- The additive phase (source lines 92-102): add the pending constraint
expressions one at a time, re-solving the auxiliary model after each
addition, and stop as soon as the status is INFEASIBLE or INT_INFEASIBLE;
the counter is incremented only on iterations that do not break. -/
def additiveLoop {C : Type} (solve : Solver C) (vs : List MipVar) :
    List C → MipModel C → AdditiveOut C
  | [], aux => { aux := aux, steps := 0, events := [] }
  | c :: rest, aux =>
    let aux1 := add_constr aux c
    let st := solve vs (exprs aux1.constrs)
    let aux2 := { aux1 with status := st }
    if st = Status.INFEASIBLE ∨ st = Status.INT_INFEASIBLE then
      { aux := aux2, steps := 0
      , events := [SolveEvent.auxSolve (exprs aux1.constrs) st] }
    else
      let r := additiveLoop solve vs rest aux2
      { aux := r.aux, steps := r.steps + 1
      , events := SolveEvent.auxSolve (exprs aux1.constrs) st :: r.events }

/-- Result of the deletion phase: the auxiliary model after the loop and the
auxiliary solves performed. -/
structure DeletionOut (C : Type) where
  aux : MipModel C
  events : List (SolveEvent C)
  deriving DecidableEq

/-- The deletion phase (source lines 104-119): for each constraint of the
copied slice, cache its expression, remove it by handle, re-solve, and
re-add the cached expression if and only if the status is FEASIBLE or
OPTIMAL; otherwise the removal is kept. -/
def deletionLoop {C : Type} (solve : Solver C) (vs : List MipVar) :
    List (Nat × C) → MipModel C → DeletionOut C
  | [], aux => { aux := aux, events := [] }
  | t :: rest, aux =>
    let e := t.2
    let aux1 := removeConstr aux t.1
    let st := solve vs (exprs aux1.constrs)
    let aux2 := { aux1 with status := st }
    let aux3 := if st = Status.FEASIBLE ∨ st = Status.OPTIMAL then
                  add_constr aux2 e
                else aux2
    let r := deletionLoop solve vs rest aux3
    { aux := r.aux
    , events := SolveEvent.auxSolve (exprs aux1.constrs) st :: r.events }

/-- Building the auxiliary model (source lines 72-88): reuse a cleared
caller-supplied model or create a fresh one with verbosity silenced, set
feasibility search emphasis, enable presolve, set the constant-zero
objective, and mirror every variable of the original model. -/
def buildAux {C : Type} (m : MipModel C) (premade : Option (MipModel C)) :
    MipModel C :=
  let aux0 := match premade with
    | some pm => clearModel pm
    | none => { freshModel C with verbose := 0 }
  let aux1 := { aux0 with emphasis := SearchEmphasis.FEASIBILITY
                        , preprocess := 1
                        , objective := Objective.const 0 }
  m.vars.foldl add_var aux1

/-- The instrumented observable outcome of a run of the source function: the
returned constraint collection (the live constraint list of the auxiliary
model), the final state of the original model, the final state of the
auxiliary model (none when the run short-circuits without a premade model,
in which case no auxiliary model exists), and every solver invocation in
order. -/
structure IISResult (C : Type) where
  iis : List (Nat × C)
  origFinal : MipModel C
  auxFinal : Option (MipModel C)
  events : List (SolveEvent C)
  deriving DecidableEq

/-- The status of the original model after the initial solve, if one was
needed: the source solves the original model once if and only if its status
is LOADED on entry (source lines 64-65). -/
def statusAfterInit {C : Type} (solve : Solver C) (m : MipModel C) : Status :=
  if m.status = Status.LOADED then solve m.vars (exprs m.constrs)
  else m.status

/-- The additive phase of a run that proceeds past the short-circuit: the
additive loop applied to the freshly built auxiliary model and the original
constraint expressions in their original order (source lines 90-102). -/
def additiveRun {C : Type} (solve : Solver C) (m : MipModel C)
    (premade : Option (MipModel C)) : AdditiveOut C :=
  additiveLoop solve m.vars (exprs m.constrs) (buildAux m premade)

/-- The final value of the counter i of the source: the index of the trigger
constraint when one exists, and the number of original constraints
otherwise. -/
def triggerIdx {C : Type} (solve : Solver C) (m : MipModel C)
    (premade : Option (MipModel C)) : Nat :=
  (additiveRun solve m premade).steps

/-- The candidate set of the additive phase: the expressions held by the
auxiliary model when the additive phase stops. -/
def candidateSet {C : Type} (solve : Solver C) (m : MipModel C)
    (premade : Option (MipModel C)) : List C :=
  exprs (additiveRun solve m premade).aux.constrs

/-- Whether the additive phase found a trigger constraint, that is, stopped
before exhausting the original constraint sequence. -/
def hasTrigger {C : Type} (solve : Solver C) (m : MipModel C)
    (premade : Option (MipModel C)) : Prop :=
  triggerIdx solve m premade < m.constrs.length

/-- The deletion phase of a run that proceeds past the short-circuit, applied
to the slice of the auxiliary constraint list from the trigger position on. -/
def deletionRun {C : Type} (solve : Solver C) (m : MipModel C)
    (premade : Option (MipModel C)) : DeletionOut C :=
  deletionLoop solve m.vars
    ((additiveRun solve m premade).aux.constrs.drop (triggerIdx solve m premade))
    (additiveRun solve m premade).aux

/-- Translation of get_iis_additive_deletion_method (source lines 50-121):
solve the original model if it is still LOADED (lines 64-65); short-circuit
with an empty collection if its status is FEASIBLE or OPTIMAL (lines 67-70);
otherwise build the auxiliary model (lines 72-88), run the additive phase
over the original constraint expressions (lines 90-102), slice the auxiliary
constraint list from the final counter value on and run the deletion phase
over a copy of that slice (lines 104-119), and return the constraint list of
the auxiliary model (line 121). -/
def get_iis_additive_deletion_method {C : Type} (solve : Solver C)
    (mip_model : MipModel C) (premade_aux_mip_model : Option (MipModel C)) :
    IISResult C :=
  let st0 := statusAfterInit solve mip_model
  let m1 := { mip_model with status := st0 }
  let ev0 : List (SolveEvent C) :=
    if mip_model.status = Status.LOADED then
      [SolveEvent.origSolve (exprs mip_model.constrs) st0]
    else []
  if st0 = Status.FEASIBLE ∨ st0 = Status.OPTIMAL then
    { iis := [], origFinal := m1, auxFinal := premade_aux_mip_model
    , events := ev0 }
  else
    { iis := (deletionRun solve mip_model premade_aux_mip_model).aux.constrs
    , origFinal := m1
    , auxFinal := some (deletionRun solve mip_model premade_aux_mip_model).aux
    , events := ev0 ++ (additiveRun solve mip_model premade_aux_mip_model).events
        ++ (deletionRun solve mip_model premade_aux_mip_model).events }

/-- A concrete model over constraint expressions taken to be natural
numbers, with no variables, the given constraint expressions (with handles
issued in order), and the given stored status. Used for concrete
evaluations of the embedding. -/
def mkModel (cs : List Nat) (st : Status) : MipModel Nat :=
  { vars := []
  , constrs := handlesFrom 0 cs
  , nextId := cs.length
  , status := st
  , verbose := 1
  , emphasis := SearchEmphasis.DEFAULT
  , preprocess := -1
  , objective := Objective.const 0 }

/-- A concrete solver oracle that reports every constraint set infeasible,
as a real solver does when the variable bounds alone are contradictory
(for example a variable with lower bound above its upper bound): then even
the empty constraint set solves infeasible. -/
def solveAllInfeas : Solver Nat := fun _ _ => Status.INFEASIBLE

/-- A concrete decisive solver oracle: the constraint set containing the two
expressions 0 and 1 is infeasible, every other set is optimal (the scenario
of the first test of the source: two conflicting constraints). -/
def solveDec01 : Solver Nat := fun _ l =>
  if l = [0, 1] then Status.INFEASIBLE else Status.OPTIMAL

/-- A concrete solver oracle returning an indecisive status on the singleton
set containing expression 0, while the set of expressions 0 and 1 is
infeasible; every other set is optimal. -/
def solveOther01 : Solver Nat := fun _ l =>
  if l = [0, 1] then Status.INFEASIBLE
  else if l = [0] then Status.OTHER
  else Status.OPTIMAL

/-- A concrete solver oracle that reports every constraint set feasible. -/
def solveFeasAll : Solver Nat := fun _ _ => Status.OPTIMAL

/-! ### Basic lemmas on statuses, expression lists and handle lists -/

theorem isFeasStatus_eq_true_iff (s : Status) :
    isFeasStatus s = true ↔ (s = Status.FEASIBLE ∨ s = Status.OPTIMAL) := by
  cases s <;> simp [isFeasStatus]

theorem isInfeasStatus_eq_true_iff (s : Status) :
    isInfeasStatus s = true ↔
      (s = Status.INFEASIBLE ∨ s = Status.INT_INFEASIBLE) := by
  cases s <;> simp [isInfeasStatus]

theorem isFeasStatus_eq_false_of_isInfeasStatus {s : Status}
    (h : isInfeasStatus s = true) : isFeasStatus s = false := by
  cases s <;> simp_all [isFeasStatus, isInfeasStatus]

theorem isInfeasStatus_of_decisive_not_feas {s : Status}
    (hd : decisiveStatus s = true) (h : isFeasStatus s = false) :
    isInfeasStatus s = true := by
  cases s <;> simp_all [decisiveStatus, isFeasStatus, isInfeasStatus]

variable {C : Type}

@[simp] theorem exprs_nil : exprs ([] : List (Nat × C)) = [] := rfl

@[simp] theorem exprs_cons (p : Nat × C) (l : List (Nat × C)) :
    exprs (p :: l) = p.2 :: exprs l := rfl

@[simp] theorem exprs_append (l1 l2 : List (Nat × C)) :
    exprs (l1 ++ l2) = exprs l1 ++ exprs l2 := by
  simp [exprs]

@[simp] theorem length_exprs (l : List (Nat × C)) :
    (exprs l).length = l.length := by
  simp [exprs]

@[simp] theorem exprs_handlesFrom (s : Nat) (l : List C) :
    exprs (handlesFrom s l) = l := by
  induction l generalizing s with
  | nil => rfl
  | cons c l ih => simp [handlesFrom, ih]

@[simp] theorem length_handlesFrom (s : Nat) (l : List C) :
    (handlesFrom s l).length = l.length := by
  induction l generalizing s with
  | nil => rfl
  | cons c l ih => simp [handlesFrom, ih]

theorem handlesFrom_append (s : Nat) (l1 l2 : List C) :
    handlesFrom s (l1 ++ l2) =
      handlesFrom s l1 ++ handlesFrom (s + l1.length) l2 := by
  induction l1 generalizing s with
  | nil => simp [handlesFrom]
  | cons c l ih =>
    simp only [List.cons_append, handlesFrom, List.length_cons]
    rw [show l.append l2 = l ++ l2 from rfl, ih]
    have harith : s + 1 + l.length = s + (l.length + 1) := by omega
    rw [harith]

theorem fst_lt_of_mem_handlesFrom {s : Nat} {l : List C} {p : Nat × C}
    (hp : p ∈ handlesFrom s l) : p.1 < s + l.length := by
  induction l generalizing s with
  | nil => simp [handlesFrom] at hp
  | cons c l ih =>
    simp only [handlesFrom, List.mem_cons] at hp
    rcases hp with h | h
    · subst h
      simp only [List.length_cons]
      omega
    · have := ih h
      simp only [List.length_cons]
      omega

theorem filter_handlesFrom_ne_last (s : Nat) (l : List C) (c : C) :
    (handlesFrom s (l ++ [c])).filter (fun p => p.1 != s + l.length) =
      handlesFrom s l := by
  rw [handlesFrom_append, List.filter_append]
  have h1 : (handlesFrom s l).filter (fun p => p.1 != s + l.length) =
      handlesFrom s l := by
    apply List.filter_eq_self.mpr
    intro p hp
    have := fst_lt_of_mem_handlesFrom hp
    simp only [bne_iff_ne, ne_eq, decide_eq_true_eq]
    omega
  have h2 : (handlesFrom (s + l.length) [c]).filter
      (fun p => p.1 != s + l.length) = [] := by
    simp [handlesFrom]
  rw [h1, h2, List.append_nil]

theorem drop_handlesFrom_length (s : Nat) (l : List C) (c : C) :
    (handlesFrom s (l ++ [c])).drop l.length = [(s + l.length, c)] := by
  rw [handlesFrom_append]
  have h := List.drop_left (handlesFrom s l) (handlesFrom (s + l.length) [c])
  rw [length_handlesFrom] at h
  rw [h]
  simp [handlesFrom]

@[simp] theorem exprs_add_constr (m : MipModel C) (e : C) :
    exprs (add_constr m e).constrs = exprs m.constrs ++ [e] := by
  simp [add_constr]

@[simp] theorem setStatus_constrs (m : MipModel C) (st : Status) :
    ({ m with status := st } : MipModel C).constrs = m.constrs := rfl

@[simp] theorem setStatus_nextId (m : MipModel C) (st : Status) :
    ({ m with status := st } : MipModel C).nextId = m.nextId := rfl

@[simp] theorem setStatus_vars (m : MipModel C) (st : Status) :
    ({ m with status := st } : MipModel C).vars = m.vars := rfl

/-! ### Lemmas on the auxiliary model builder -/

theorem foldl_add_var (l : List MipVar) (a : MipModel C) :
    l.foldl add_var a = { a with vars := a.vars ++ l } := by
  induction l generalizing a with
  | nil => simp
  | cons v l ih => simp [List.foldl_cons, ih, add_var]

theorem buildAux_vars (m : MipModel C) (premade : Option (MipModel C)) :
    (buildAux m premade).vars = m.vars := by
  cases premade <;> simp [buildAux, foldl_add_var, clearModel, freshModel]

theorem buildAux_constrs (m : MipModel C) (premade : Option (MipModel C)) :
    (buildAux m premade).constrs = [] := by
  cases premade <;> simp [buildAux, foldl_add_var, clearModel, freshModel]

theorem buildAux_nextId (m : MipModel C) (premade : Option (MipModel C)) :
    (buildAux m premade).nextId = 0 := by
  cases premade <;> simp [buildAux, foldl_add_var, clearModel, freshModel]

theorem buildAux_emphasis (m : MipModel C) (premade : Option (MipModel C)) :
    (buildAux m premade).emphasis = SearchEmphasis.FEASIBILITY := by
  cases premade <;> simp [buildAux, foldl_add_var, clearModel, freshModel]

theorem buildAux_preprocess (m : MipModel C) (premade : Option (MipModel C)) :
    (buildAux m premade).preprocess = 1 := by
  cases premade <;> simp [buildAux, foldl_add_var, clearModel, freshModel]

theorem buildAux_objective (m : MipModel C) (premade : Option (MipModel C)) :
    (buildAux m premade).objective = Objective.const 0 := by
  cases premade <;> simp [buildAux, foldl_add_var, clearModel, freshModel]

theorem buildAux_verbose_none (m : MipModel C) :
    (buildAux m (none : Option (MipModel C))).verbose = 0 := by
  simp [buildAux, foldl_add_var, clearModel, freshModel]

theorem buildAux_verbose_some (m : MipModel C) (pm : MipModel C) :
    (buildAux m (some pm)).verbose = 1 := by
  simp [buildAux, foldl_add_var, clearModel, freshModel]

/-! ### Lemmas on the additive loop -/

theorem additiveLoop_steps_le (solve : Solver C) (vs : List MipVar)
    (pend : List C) :
    ∀ aux : MipModel C, (additiveLoop solve vs pend aux).steps ≤ pend.length := by
  induction pend with
  | nil => intro aux; simp [additiveLoop]
  | cons c rest ih =>
    intro aux
    by_cases h : solve vs (exprs (add_constr aux c).constrs) = Status.INFEASIBLE ∨
        solve vs (exprs (add_constr aux c).constrs) = Status.INT_INFEASIBLE
    · simp only [additiveLoop, if_pos h]
      simp
    · simp only [additiveLoop, if_neg h]
      exact Nat.succ_le_succ (ih _)

theorem additiveLoop_constrs (solve : Solver C) (vs : List MipVar)
    (pend : List C) :
    ∀ aux : MipModel C,
      (additiveLoop solve vs pend aux).aux.constrs =
        aux.constrs ++ handlesFrom aux.nextId
          (pend.take ((additiveLoop solve vs pend aux).steps + 1)) := by
  induction pend with
  | nil => intro aux; simp [additiveLoop, handlesFrom]
  | cons c rest ih =>
    intro aux
    by_cases h : solve vs (exprs (add_constr aux c).constrs) = Status.INFEASIBLE ∨
        solve vs (exprs (add_constr aux c).constrs) = Status.INT_INFEASIBLE
    · simp only [additiveLoop, if_pos h]
      simp [add_constr, handlesFrom]
    · simp only [additiveLoop, if_neg h]
      rw [ih]
      simp [add_constr, handlesFrom]

theorem additiveLoop_not_infeas (solve : Solver C) (vs : List MipVar)
    (pend : List C) :
    ∀ (aux : MipModel C) (j : Nat), j < (additiveLoop solve vs pend aux).steps →
      isInfeasStatus (solve vs (exprs aux.constrs ++ pend.take (j + 1))) = false := by
  induction pend with
  | nil => intro aux j hj; simp [additiveLoop] at hj
  | cons c rest ih =>
    intro aux j hj
    by_cases h : solve vs (exprs (add_constr aux c).constrs) = Status.INFEASIBLE ∨
        solve vs (exprs (add_constr aux c).constrs) = Status.INT_INFEASIBLE
    · simp only [additiveLoop, if_pos h] at hj
      exact absurd hj (by simp)
    · simp only [additiveLoop, if_neg h] at hj
      cases j with
      | zero =>
        have hc : ¬ (solve vs (exprs aux.constrs ++ [c]) = Status.INFEASIBLE ∨
            solve vs (exprs aux.constrs ++ [c]) = Status.INT_INFEASIBLE) := by
          simpa [exprs_add_constr] using h
        have : ¬ isInfeasStatus (solve vs (exprs aux.constrs ++ [c])) = true := by
          rw [isInfeasStatus_eq_true_iff]
          exact hc
        simpa using this
      | succ j =>
        have hj' := Nat.lt_of_succ_lt_succ hj
        have hrec := ih _ j hj'
        simpa [add_constr] using hrec

theorem additiveLoop_infeas_at (solve : Solver C) (vs : List MipVar)
    (pend : List C) :
    ∀ aux : MipModel C, (additiveLoop solve vs pend aux).steps < pend.length →
      isInfeasStatus (solve vs (exprs aux.constrs ++
        pend.take ((additiveLoop solve vs pend aux).steps + 1))) = true := by
  induction pend with
  | nil => intro aux h; simp [additiveLoop] at h
  | cons c rest ih =>
    intro aux h
    by_cases hb : solve vs (exprs (add_constr aux c).constrs) = Status.INFEASIBLE ∨
        solve vs (exprs (add_constr aux c).constrs) = Status.INT_INFEASIBLE
    · simp only [additiveLoop, if_pos hb]
      have : isInfeasStatus (solve vs (exprs aux.constrs ++ [c])) = true := by
        rw [isInfeasStatus_eq_true_iff]
        simpa [exprs_add_constr] using hb
      simpa using this
    · simp only [additiveLoop, if_neg hb] at h ⊢
      have h' := Nat.lt_of_succ_lt_succ h
      have hrec := ih _ h'
      simpa [add_constr] using hrec

theorem additiveLoop_events (solve : Solver C) (vs : List MipVar)
    (pend : List C) :
    ∀ aux : MipModel C,
      (additiveLoop solve vs pend aux).events =
        (List.range (min pend.length ((additiveLoop solve vs pend aux).steps + 1))).map
          (fun j => SolveEvent.auxSolve (exprs aux.constrs ++ pend.take (j + 1))
            (solve vs (exprs aux.constrs ++ pend.take (j + 1)))) := by
  induction pend with
  | nil => intro aux; simp [additiveLoop]
  | cons c rest ih =>
    intro aux
    by_cases hb : solve vs (exprs (add_constr aux c).constrs) = Status.INFEASIBLE ∨
        solve vs (exprs (add_constr aux c).constrs) = Status.INT_INFEASIBLE
    · simp only [additiveLoop, if_pos hb]
      have hmin : min (rest.length + 1) (0 + 1) = 1 := by omega
      simp [hmin, exprs_add_constr, List.range_succ]
    · simp only [additiveLoop, if_neg hb]
      rw [ih]
      simp only [List.length_cons]
      generalize (additiveLoop solve vs rest
        { add_constr aux c with
          status := solve vs (exprs (add_constr aux c).constrs) }).steps = k
      have hmin : min (rest.length + 1) (k + 1 + 1) = min rest.length (k + 1) + 1 := by
        omega
      rw [hmin, List.range_succ_eq_map, List.map_cons, List.map_map]
      congr 1
      · simp [exprs_add_constr]
      · congr 1
        funext j
        simp [Function.comp, add_constr]

theorem additiveLoop_events_isAux (solve : Solver C) (vs : List MipVar)
    (pend : List C) :
    ∀ aux : MipModel C, ∀ e ∈ (additiveLoop solve vs pend aux).events,
      e.isAux = true := by
  induction pend with
  | nil => intro aux e he; simp [additiveLoop] at he
  | cons c rest ih =>
    intro aux e he
    by_cases hb : solve vs (exprs (add_constr aux c).constrs) = Status.INFEASIBLE ∨
        solve vs (exprs (add_constr aux c).constrs) = Status.INT_INFEASIBLE
    · simp only [additiveLoop, if_pos hb] at he
      simp only [List.mem_singleton] at he
      subst he
      rfl
    · simp only [additiveLoop, if_neg hb] at he
      simp only [List.mem_cons] at he
      rcases he with he | he
      · subst he; rfl
      · exact ih _ e he

/-! ### Lemmas on the deletion loop -/

theorem deletionLoop_nil (solve : Solver C) (vs : List MipVar)
    (aux : MipModel C) :
    deletionLoop solve vs [] aux = { aux := aux, events := [] } := rfl

theorem deletionLoop_pair (solve : Solver C) (vs : List MipVar)
    (h : Nat) (e : C) (aux : MipModel C) :
    deletionLoop solve vs [(h, e)] aux =
      { aux := if solve vs (exprs (removeConstr aux h).constrs) = Status.FEASIBLE ∨
                  solve vs (exprs (removeConstr aux h).constrs) = Status.OPTIMAL
               then add_constr { removeConstr aux h with
                      status := solve vs (exprs (removeConstr aux h).constrs) } e
               else { removeConstr aux h with
                      status := solve vs (exprs (removeConstr aux h).constrs) }
      , events := [SolveEvent.auxSolve (exprs (removeConstr aux h).constrs)
                    (solve vs (exprs (removeConstr aux h).constrs))] } := by
  by_cases hc : solve vs (exprs (removeConstr aux h).constrs) = Status.FEASIBLE ∨
      solve vs (exprs (removeConstr aux h).constrs) = Status.OPTIMAL
  · simp [deletionLoop, hc]
  · simp [deletionLoop, hc]

theorem deletionLoop_events_isAux (solve : Solver C) (vs : List MipVar)
    (l : List (Nat × C)) :
    ∀ aux : MipModel C, ∀ e ∈ (deletionLoop solve vs l aux).events,
      e.isAux = true := by
  induction l with
  | nil => intro aux e he; simp [deletionLoop] at he
  | cons t rest ih =>
    intro aux e he
    simp only [deletionLoop, List.mem_cons] at he
    rcases he with he | he
    · subst he; rfl
    · exact ih _ e he

/-! ### Run-level lemmas -/

theorem statusAfterInit_not_feas_cond {solve : Solver C} {m : MipModel C}
    (hne : isFeasStatus (statusAfterInit solve m) = false) :
    ¬ (statusAfterInit solve m = Status.FEASIBLE ∨
       statusAfterInit solve m = Status.OPTIMAL) := by
  rw [← isFeasStatus_eq_true_iff]
  simp [hne]

theorem run_eq_of_feas {solve : Solver C} {m : MipModel C}
    {premade : Option (MipModel C)}
    (hfe : isFeasStatus (statusAfterInit solve m) = true) :
    get_iis_additive_deletion_method solve m premade =
      { iis := []
      , origFinal := { m with status := statusAfterInit solve m }
      , auxFinal := premade
      , events := if m.status = Status.LOADED then
          [SolveEvent.origSolve (exprs m.constrs) (statusAfterInit solve m)]
          else [] } := by
  have h := (isFeasStatus_eq_true_iff _).mp hfe
  simp only [get_iis_additive_deletion_method]
  rw [if_pos h]

theorem run_eq_of_not_feas {solve : Solver C} {m : MipModel C}
    {premade : Option (MipModel C)}
    (hne : isFeasStatus (statusAfterInit solve m) = false) :
    get_iis_additive_deletion_method solve m premade =
      { iis := (deletionRun solve m premade).aux.constrs
      , origFinal := { m with status := statusAfterInit solve m }
      , auxFinal := some (deletionRun solve m premade).aux
      , events := (if m.status = Status.LOADED then
            [SolveEvent.origSolve (exprs m.constrs) (statusAfterInit solve m)]
          else []) ++ (additiveRun solve m premade).events
          ++ (deletionRun solve m premade).events } := by
  simp only [get_iis_additive_deletion_method]
  rw [if_neg (statusAfterInit_not_feas_cond hne)]

theorem triggerIdx_le (solve : Solver C) (m : MipModel C)
    (premade : Option (MipModel C)) :
    triggerIdx solve m premade ≤ m.constrs.length := by
  have := additiveLoop_steps_le solve m.vars (exprs m.constrs) (buildAux m premade)
  simpa [triggerIdx, additiveRun] using this

theorem additiveRun_constrs (solve : Solver C) (m : MipModel C)
    (premade : Option (MipModel C)) :
    (additiveRun solve m premade).aux.constrs =
      handlesFrom 0 ((exprs m.constrs).take (triggerIdx solve m premade + 1)) := by
  have := additiveLoop_constrs solve m.vars (exprs m.constrs) (buildAux m premade)
  rw [buildAux_constrs, buildAux_nextId] at this
  simpa [additiveRun, triggerIdx] using this

theorem candidateSet_eq (solve : Solver C) (m : MipModel C)
    (premade : Option (MipModel C)) :
    candidateSet solve m premade =
      (exprs m.constrs).take (triggerIdx solve m premade + 1) := by
  rw [candidateSet, additiveRun_constrs, exprs_handlesFrom]

theorem not_infeas_before_trigger (solve : Solver C) (m : MipModel C)
    (premade : Option (MipModel C)) (j : Nat)
    (hj : j < triggerIdx solve m premade) :
    isInfeasStatus (solve m.vars ((exprs m.constrs).take (j + 1))) = false := by
  have hj' : j < (additiveLoop solve m.vars (exprs m.constrs)
      (buildAux m premade)).steps := by
    simpa [triggerIdx, additiveRun] using hj
  have := additiveLoop_not_infeas solve m.vars (exprs m.constrs)
    (buildAux m premade) j hj'
  simpa [buildAux_constrs] using this

theorem infeas_at_trigger (solve : Solver C) (m : MipModel C)
    (premade : Option (MipModel C))
    (ht : triggerIdx solve m premade < m.constrs.length) :
    isInfeasStatus (solve m.vars
      ((exprs m.constrs).take (triggerIdx solve m premade + 1))) = true := by
  have hlt : (additiveLoop solve m.vars (exprs m.constrs)
      (buildAux m premade)).steps < (exprs m.constrs).length := by
    simpa [triggerIdx, additiveRun] using ht
  have := additiveLoop_infeas_at solve m.vars (exprs m.constrs)
    (buildAux m premade) hlt
  simpa [buildAux_constrs, triggerIdx, additiveRun] using this

theorem additiveRun_events (solve : Solver C) (m : MipModel C)
    (premade : Option (MipModel C)) :
    (additiveRun solve m premade).events =
      (List.range (min m.constrs.length (triggerIdx solve m premade + 1))).map
        (fun j => SolveEvent.auxSolve ((exprs m.constrs).take (j + 1))
          (solve m.vars ((exprs m.constrs).take (j + 1)))) := by
  have := additiveLoop_events solve m.vars (exprs m.constrs) (buildAux m premade)
  rw [buildAux_constrs] at this
  simpa [additiveRun, triggerIdx] using this

theorem take_succ_of_lt {α : Type} (l : List α) (i : Nat) (h : i < l.length) :
    ∃ t : α, l.take (i + 1) = l.take i ++ [t] := by
  refine ⟨l[i], ?_⟩
  rw [List.take_succ, List.getElem?_eq_getElem h]
  rfl

theorem temp_eq_of_trigger (solve : Solver C) (m : MipModel C)
    (premade : Option (MipModel C))
    (ht : triggerIdx solve m premade < m.constrs.length) :
    ∃ t : C,
      (exprs m.constrs).take (triggerIdx solve m premade + 1) =
        (exprs m.constrs).take (triggerIdx solve m premade) ++ [t] ∧
      (additiveRun solve m premade).aux.constrs.drop (triggerIdx solve m premade) =
        [(triggerIdx solve m premade, t)] := by
  have ht' : triggerIdx solve m premade < (exprs m.constrs).length := by
    simpa using ht
  obtain ⟨t, htake⟩ := take_succ_of_lt (exprs m.constrs)
    (triggerIdx solve m premade) ht'
  refine ⟨t, htake, ?_⟩
  have hlen : ((exprs m.constrs).take (triggerIdx solve m premade)).length =
      triggerIdx solve m premade := by
    rw [List.length_take]
    omega
  have hd := drop_handlesFrom_length 0
    ((exprs m.constrs).take (triggerIdx solve m premade)) t
  rw [hlen] at hd
  rw [additiveRun_constrs, htake]
  simpa using hd

theorem removeConstr_trigger_constrs (solve : Solver C) (m : MipModel C)
    (premade : Option (MipModel C)) {t : C}
    (ht : triggerIdx solve m premade < m.constrs.length)
    (htake : (exprs m.constrs).take (triggerIdx solve m premade + 1) =
      (exprs m.constrs).take (triggerIdx solve m premade) ++ [t]) :
    (removeConstr (additiveRun solve m premade).aux
        (triggerIdx solve m premade)).constrs =
      handlesFrom 0 ((exprs m.constrs).take (triggerIdx solve m premade)) := by
  have hlen : ((exprs m.constrs).take (triggerIdx solve m premade)).length =
      triggerIdx solve m premade := by
    have h' : triggerIdx solve m premade < (exprs m.constrs).length := by
      simpa using ht
    rw [List.length_take]
    omega
  have hf := filter_handlesFrom_ne_last 0
    ((exprs m.constrs).take (triggerIdx solve m premade)) t
  rw [hlen] at hf
  simp only [removeConstr, additiveRun_constrs, htake]
  simpa using hf

theorem deletionRun_exprs_of_trigger (solve : Solver C) (m : MipModel C)
    (premade : Option (MipModel C))
    (ht : triggerIdx solve m premade < m.constrs.length) :
    exprs (deletionRun solve m premade).aux.constrs =
      if isFeasStatus (solve m.vars
          ((exprs m.constrs).take (triggerIdx solve m premade))) = true
      then (exprs m.constrs).take (triggerIdx solve m premade + 1)
      else (exprs m.constrs).take (triggerIdx solve m premade) := by
  obtain ⟨t, htake, htemp⟩ := temp_eq_of_trigger solve m premade ht
  have hrem := removeConstr_trigger_constrs solve m premade ht htake
  rw [deletionRun, htemp, deletionLoop_pair]
  by_cases hP : solve m.vars (exprs (removeConstr (additiveRun solve m premade).aux
        (triggerIdx solve m premade)).constrs) = Status.FEASIBLE ∨
      solve m.vars (exprs (removeConstr (additiveRun solve m premade).aux
        (triggerIdx solve m premade)).constrs) = Status.OPTIMAL
  · have hfeas : isFeasStatus (solve m.vars
        ((exprs m.constrs).take (triggerIdx solve m premade))) = true := by
      rw [isFeasStatus_eq_true_iff]
      rw [hrem, exprs_handlesFrom] at hP
      exact hP
    rw [if_pos hP, if_pos hfeas, htake]
    simp [hrem]
  · have hfeas : isFeasStatus (solve m.vars
        ((exprs m.constrs).take (triggerIdx solve m premade))) = false := by
      have hn : ¬ isFeasStatus (solve m.vars
          ((exprs m.constrs).take (triggerIdx solve m premade))) = true := by
        rw [isFeasStatus_eq_true_iff]
        rw [hrem, exprs_handlesFrom] at hP
        exact hP
      simpa using hn
    rw [if_neg hP, if_neg (by simp [hfeas])]
    simp [hrem]

theorem deletionRun_of_no_trigger (solve : Solver C) (m : MipModel C)
    (premade : Option (MipModel C))
    (hnt : triggerIdx solve m premade = m.constrs.length) :
    deletionRun solve m premade =
      { aux := (additiveRun solve m premade).aux, events := [] } := by
  have hdrop : (additiveRun solve m premade).aux.constrs.drop
      (triggerIdx solve m premade) = [] := by
    apply List.drop_eq_nil_of_le
    rw [additiveRun_constrs, length_handlesFrom, List.length_take]
    simp only [length_exprs]
    omega
  rw [deletionRun, hdrop, deletionLoop_nil]

theorem deletionRun_exprs_of_no_trigger (solve : Solver C) (m : MipModel C)
    (premade : Option (MipModel C))
    (hnt : triggerIdx solve m premade = m.constrs.length) :
    exprs (deletionRun solve m premade).aux.constrs = exprs m.constrs := by
  rw [deletionRun_of_no_trigger solve m premade hnt]
  show exprs (additiveRun solve m premade).aux.constrs = exprs m.constrs
  rw [additiveRun_constrs, exprs_handlesFrom]
  apply List.take_of_length_le
  simp only [length_exprs]
  omega

/-! ### The claims -/

/-- C1 (amended): assuming every solver call returns a decisive status
(OPTIMAL, FEASIBLE, INFEASIBLE or INT_INFEASIBLE), for every model whose
solved status is INFEASIBLE or INT_INFEASIBLE, solving a model whose
constraints are exactly the returned collection yields INFEASIBLE or
INT_INFEASIBLE. The original claim, without the decisiveness assumption, is
refuted by the counterexample below: an indecisive status on the re-solve
after removing the trigger makes the code keep the removal, and the
returned collection then solves to that indecisive status. -/
theorem claim_C1 (solve : Solver C) (m : MipModel C)
    (premade : Option (MipModel C))
    (hdec : ∀ vs l, decisiveStatus (solve vs l) = true)
    (hws : m.status = Status.LOADED ∨
      m.status = solve m.vars (exprs m.constrs))
    (hinf : isInfeasStatus (statusAfterInit solve m) = true) :
    isInfeasStatus (solve m.vars
      (exprs (get_iis_additive_deletion_method solve m premade).iis)) = true := by
  have hsolve : isInfeasStatus (solve m.vars (exprs m.constrs)) = true := by
    by_cases hl : m.status = Status.LOADED
    · rw [statusAfterInit, if_pos hl] at hinf
      exact hinf
    · rcases hws with h | h
      · exact absurd h hl
      · rw [statusAfterInit, if_neg hl] at hinf
        rw [← h]
        exact hinf
  have hne : isFeasStatus (statusAfterInit solve m) = false :=
    isFeasStatus_eq_false_of_isInfeasStatus hinf
  have hiis : exprs (get_iis_additive_deletion_method solve m premade).iis =
      exprs (deletionRun solve m premade).aux.constrs := by
    rw [run_eq_of_not_feas hne]
  rcases Nat.lt_or_ge (triggerIdx solve m premade) m.constrs.length with ht | hge
  · rw [hiis, deletionRun_exprs_of_trigger solve m premade ht]
    by_cases hf : isFeasStatus (solve m.vars
        ((exprs m.constrs).take (triggerIdx solve m premade))) = true
    · rw [if_pos hf]
      exact infeas_at_trigger solve m premade ht
    · rw [if_neg hf]
      exact isInfeasStatus_of_decisive_not_feas (hdec _ _) (by simpa using hf)
  · have hnt : triggerIdx solve m premade = m.constrs.length :=
      Nat.le_antisymm (triggerIdx_le solve m premade) hge
    rw [hiis, deletionRun_exprs_of_no_trigger solve m premade hnt]
    exact hsolve

/-- Witness for C1: a decisive solver on which the two-constraint
conflicting scenario produces an IIS that still solves infeasible. -/
theorem claim_C1_witness :
    (∀ vs l, decisiveStatus (solveDec01 vs l) = true) ∧
    ((mkModel [0, 1] Status.INFEASIBLE).status = Status.LOADED ∨
      (mkModel [0, 1] Status.INFEASIBLE).status =
        solveDec01 (mkModel [0, 1] Status.INFEASIBLE).vars
          (exprs (mkModel [0, 1] Status.INFEASIBLE).constrs)) ∧
    isInfeasStatus (statusAfterInit solveDec01
      (mkModel [0, 1] Status.INFEASIBLE)) = true ∧
    isInfeasStatus (solveDec01 (mkModel [0, 1] Status.INFEASIBLE).vars
      (exprs (get_iis_additive_deletion_method solveDec01
        (mkModel [0, 1] Status.INFEASIBLE) none).iis)) = true := by
  have hdec : ∀ vs l, decisiveStatus (solveDec01 vs l) = true := by
    intro vs l
    by_cases h : l = [0, 1] <;>
      simp [solveDec01, decisiveStatus, isFeasStatus, isInfeasStatus, h]
  exact ⟨hdec, by decide, by decide,
    claim_C1 solveDec01 (mkModel [0, 1] Status.INFEASIBLE) none hdec
      (by decide) (by decide)⟩

/-- Counterexample to C1 as stated: with a solver returning the indecisive
status OTHER on the singleton set containing expression 0, the model with
constraints 0 and 1 has solved status INFEASIBLE, yet the returned
collection (just the constraint 0, since removing the trigger re-solved to
OTHER and the removal was kept) does not solve to INFEASIBLE or
INT_INFEASIBLE. -/
theorem claim_C1_counterexample :
    isInfeasStatus (mkModel [0, 1] Status.INFEASIBLE).status = true ∧
    (mkModel [0, 1] Status.INFEASIBLE).status =
      solveOther01 (mkModel [0, 1] Status.INFEASIBLE).vars
        (exprs (mkModel [0, 1] Status.INFEASIBLE).constrs) ∧
    isInfeasStatus (solveOther01 (mkModel [0, 1] Status.INFEASIBLE).vars
      (exprs (get_iis_additive_deletion_method solveOther01
        (mkModel [0, 1] Status.INFEASIBLE) none).iis)) = false := by
  decide

/-- C2: for every model whose status (after the initial solve, if one was
needed) is OPTIMAL or FEASIBLE, the function returns an empty collection
immediately: the auxiliary model argument is returned untouched and no
auxiliary-model solve is performed, so neither the additive nor the
deletion phase runs. -/
theorem claim_C2 (solve : Solver C) (m : MipModel C)
    (premade : Option (MipModel C))
    (hfe : isFeasStatus (statusAfterInit solve m) = true) :
    (get_iis_additive_deletion_method solve m premade).iis = [] ∧
    (get_iis_additive_deletion_method solve m premade).auxFinal = premade ∧
    ∀ e ∈ (get_iis_additive_deletion_method solve m premade).events,
      e.isAux = false := by
  rw [run_eq_of_feas hfe]
  refine ⟨rfl, rfl, ?_⟩
  intro e he
  by_cases hl : m.status = Status.LOADED
  · simp only [hl, if_pos, List.mem_singleton] at he
    subst he
    rfl
  · simp [hl] at he

/-- Witness for C2: an already optimal model yields the empty collection. -/
theorem claim_C2_witness :
    isFeasStatus (statusAfterInit solveFeasAll (mkModel [0] Status.OPTIMAL)) = true ∧
    ((get_iis_additive_deletion_method solveFeasAll
        (mkModel [0] Status.OPTIMAL) none).iis = [] ∧
      (get_iis_additive_deletion_method solveFeasAll
        (mkModel [0] Status.OPTIMAL) none).auxFinal = none ∧
      ∀ e ∈ (get_iis_additive_deletion_method solveFeasAll
        (mkModel [0] Status.OPTIMAL) none).events, e.isAux = false) :=
  ⟨by decide, claim_C2 solveFeasAll (mkModel [0] Status.OPTIMAL) none (by decide)⟩

/-- C3: for every model that reaches the additive phase, the constraints are
added one at a time in original order with a re-solve after every single
addition (the auxiliary solves of the additive phase are exactly the solves
of the successive prefixes, in order), the phase stops at the first
constraint whose addition makes the status INFEASIBLE or INT_INFEASIBLE,
the candidate set is the prefix up to and including the trigger, and if no
addition ever yields such a status the candidate set is the entire
constraint sequence and the whole sequence is what the function returns. -/
theorem claim_C3 (solve : Solver C) (m : MipModel C)
    (premade : Option (MipModel C))
    (hne : isFeasStatus (statusAfterInit solve m) = false) :
    candidateSet solve m premade =
      (exprs m.constrs).take (triggerIdx solve m premade + 1) ∧
    (∀ j, j < triggerIdx solve m premade →
      isInfeasStatus (solve m.vars ((exprs m.constrs).take (j + 1))) = false) ∧
    (triggerIdx solve m premade < m.constrs.length →
      isInfeasStatus (solve m.vars
        ((exprs m.constrs).take (triggerIdx solve m premade + 1))) = true) ∧
    (additiveRun solve m premade).events =
      (List.range (min m.constrs.length (triggerIdx solve m premade + 1))).map
        (fun j => SolveEvent.auxSolve ((exprs m.constrs).take (j + 1))
          (solve m.vars ((exprs m.constrs).take (j + 1)))) ∧
    (triggerIdx solve m premade = m.constrs.length →
      candidateSet solve m premade = exprs m.constrs ∧
      exprs (get_iis_additive_deletion_method solve m premade).iis =
        exprs m.constrs) := by
  refine ⟨candidateSet_eq solve m premade,
    fun j hj => not_infeas_before_trigger solve m premade j hj,
    fun ht => infeas_at_trigger solve m premade ht,
    additiveRun_events solve m premade,
    fun hnt => ⟨?_, ?_⟩⟩
  · rw [candidateSet_eq]
    apply List.take_of_length_le
    simp only [length_exprs]
    omega
  · have hiis : exprs (get_iis_additive_deletion_method solve m premade).iis =
        exprs (deletionRun solve m premade).aux.constrs := by
      rw [run_eq_of_not_feas hne]
    rw [hiis]
    exact deletionRun_exprs_of_no_trigger solve m premade hnt

/-- Witness for C3 on the two-constraint conflicting scenario. -/
theorem claim_C3_witness :
    isFeasStatus (statusAfterInit solveDec01 (mkModel [0, 1] Status.INFEASIBLE)) = false ∧
    (candidateSet solveDec01 (mkModel [0, 1] Status.INFEASIBLE) none =
      (exprs (mkModel [0, 1] Status.INFEASIBLE).constrs).take
        (triggerIdx solveDec01 (mkModel [0, 1] Status.INFEASIBLE) none + 1) ∧
    (∀ j, j < triggerIdx solveDec01 (mkModel [0, 1] Status.INFEASIBLE) none →
      isInfeasStatus (solveDec01 (mkModel [0, 1] Status.INFEASIBLE).vars
        ((exprs (mkModel [0, 1] Status.INFEASIBLE).constrs).take (j + 1))) = false) ∧
    (triggerIdx solveDec01 (mkModel [0, 1] Status.INFEASIBLE) none <
        (mkModel [0, 1] Status.INFEASIBLE).constrs.length →
      isInfeasStatus (solveDec01 (mkModel [0, 1] Status.INFEASIBLE).vars
        ((exprs (mkModel [0, 1] Status.INFEASIBLE).constrs).take
          (triggerIdx solveDec01 (mkModel [0, 1] Status.INFEASIBLE) none + 1))) = true) ∧
    (additiveRun solveDec01 (mkModel [0, 1] Status.INFEASIBLE) none).events =
      (List.range (min (mkModel [0, 1] Status.INFEASIBLE).constrs.length
          (triggerIdx solveDec01 (mkModel [0, 1] Status.INFEASIBLE) none + 1))).map
        (fun j => SolveEvent.auxSolve
          ((exprs (mkModel [0, 1] Status.INFEASIBLE).constrs).take (j + 1))
          (solveDec01 (mkModel [0, 1] Status.INFEASIBLE).vars
            ((exprs (mkModel [0, 1] Status.INFEASIBLE).constrs).take (j + 1)))) ∧
    (triggerIdx solveDec01 (mkModel [0, 1] Status.INFEASIBLE) none =
        (mkModel [0, 1] Status.INFEASIBLE).constrs.length →
      candidateSet solveDec01 (mkModel [0, 1] Status.INFEASIBLE) none =
        exprs (mkModel [0, 1] Status.INFEASIBLE).constrs ∧
      exprs (get_iis_additive_deletion_method solveDec01
        (mkModel [0, 1] Status.INFEASIBLE) none).iis =
        exprs (mkModel [0, 1] Status.INFEASIBLE).constrs)) :=
  ⟨by decide,
    claim_C3 solveDec01 (mkModel [0, 1] Status.INFEASIBLE) none (by decide)⟩

/-- C4 (amended): for every run of the additive phase that finds a trigger,
every nonempty strict prefix of the candidate set, when solved alone, yields
a status that is neither INFEASIBLE nor INT_INFEASIBLE (so it is feasible
whenever the solver is decisive), and the full candidate set solves to
INFEASIBLE or INT_INFEASIBLE. The original claim also asserted feasibility
of the empty strict prefix, which fails: a solver can report the empty
constraint set infeasible (contradictory variable bounds), as the
counterexample below shows. -/
theorem claim_C4 (solve : Solver C) (m : MipModel C)
    (premade : Option (MipModel C))
    (_hne : isFeasStatus (statusAfterInit solve m) = false)
    (ht : triggerIdx solve m premade < m.constrs.length) :
    (∀ j, 0 < j → j < (candidateSet solve m premade).length →
      isInfeasStatus (solve m.vars ((candidateSet solve m premade).take j)) = false) ∧
    isInfeasStatus (solve m.vars (candidateSet solve m premade)) = true := by
  have hcl : (exprs m.constrs).length = m.constrs.length := length_exprs _
  constructor
  · intro j hj0 hjlen
    rw [candidateSet_eq] at hjlen ⊢
    rw [List.length_take] at hjlen
    rw [List.take_take]
    have hmin : min j (triggerIdx solve m premade + 1) = j := by omega
    rw [hmin]
    obtain ⟨j1, rfl⟩ : ∃ j1, j = j1 + 1 := ⟨j - 1, by omega⟩
    exact not_infeas_before_trigger solve m premade j1 (by omega)
  · rw [candidateSet_eq]
    exact infeas_at_trigger solve m premade ht

/-- Witness for C4 on the two-constraint conflicting scenario. -/
theorem claim_C4_witness :
    isFeasStatus (statusAfterInit solveDec01 (mkModel [0, 1] Status.INFEASIBLE)) = false ∧
    triggerIdx solveDec01 (mkModel [0, 1] Status.INFEASIBLE) none <
      (mkModel [0, 1] Status.INFEASIBLE).constrs.length ∧
    ((∀ j, 0 < j →
        j < (candidateSet solveDec01 (mkModel [0, 1] Status.INFEASIBLE) none).length →
      isInfeasStatus (solveDec01 (mkModel [0, 1] Status.INFEASIBLE).vars
        ((candidateSet solveDec01 (mkModel [0, 1] Status.INFEASIBLE) none).take j)) =
        false) ∧
    isInfeasStatus (solveDec01 (mkModel [0, 1] Status.INFEASIBLE).vars
      (candidateSet solveDec01 (mkModel [0, 1] Status.INFEASIBLE) none)) = true) :=
  ⟨by decide, by decide,
    claim_C4 solveDec01 (mkModel [0, 1] Status.INFEASIBLE) none
      (by decide) (by decide)⟩

/-- Counterexample to C4 as stated: with a solver that reports every set
(including the empty one) infeasible, the single constraint 7 triggers at
once; the empty strict prefix of the candidate set is then not feasible
when solved alone. -/
theorem claim_C4_counterexample :
    isFeasStatus (statusAfterInit solveAllInfeas (mkModel [7] Status.INFEASIBLE)) = false ∧
    triggerIdx solveAllInfeas (mkModel [7] Status.INFEASIBLE) none <
      (mkModel [7] Status.INFEASIBLE).constrs.length ∧
    ¬ (∀ j, j < (candidateSet solveAllInfeas (mkModel [7] Status.INFEASIBLE) none).length →
        isFeasStatus (solveAllInfeas (mkModel [7] Status.INFEASIBLE).vars
          ((candidateSet solveAllInfeas (mkModel [7] Status.INFEASIBLE) none).take j)) =
          true) := by
  decide

/-- C5 (amended): for every run that reaches the deletion phase, the phase
tests removability exactly of the constraints of the auxiliary model from
the trigger position through the end of the candidate set, in the order
they were appended; each tested constraint is removed and the model
re-solved, it is kept permanently removed if and only if the re-solve
status is neither FEASIBLE nor OPTIMAL (in particular whenever it remains
INFEASIBLE or INT_INFEASIBLE), and it is re-inserted using the cached
expression if the status is FEASIBLE or OPTIMAL; the returned collection is
the constraint list left by this process. The original claim stated the
kept-removed condition as an equivalence with the status being INFEASIBLE
or INT_INFEASIBLE, which the counterexample below refutes: an indecisive
re-solve status also keeps the removal. -/
theorem claim_C5 (solve : Solver C) (m : MipModel C)
    (premade : Option (MipModel C))
    (hne : isFeasStatus (statusAfterInit solve m) = false) :
    (∀ t ∈ (additiveRun solve m premade).aux.constrs.drop
        (triggerIdx solve m premade),
      (deletionRun solve m premade).aux.constrs =
        (if isFeasStatus (solve m.vars (exprs (removeConstr
              (additiveRun solve m premade).aux t.1).constrs)) = true
         then (removeConstr (additiveRun solve m premade).aux t.1).constrs ++
           [((removeConstr (additiveRun solve m premade).aux t.1).nextId, t.2)]
         else (removeConstr (additiveRun solve m premade).aux t.1).constrs)) ∧
    (deletionRun solve m premade).events =
      ((additiveRun solve m premade).aux.constrs.drop
          (triggerIdx solve m premade)).map
        (fun t => SolveEvent.auxSolve
          (exprs (removeConstr (additiveRun solve m premade).aux t.1).constrs)
          (solve m.vars
            (exprs (removeConstr (additiveRun solve m premade).aux t.1).constrs))) ∧
    (get_iis_additive_deletion_method solve m premade).iis =
      (deletionRun solve m premade).aux.constrs := by
  rcases Nat.lt_or_ge (triggerIdx solve m premade) m.constrs.length with ht | hge
  · obtain ⟨t, htake, htemp⟩ := temp_eq_of_trigger solve m premade ht
    refine ⟨?_, ?_, ?_⟩
    · intro t2 ht2
      rw [htemp] at ht2
      simp only [List.mem_singleton] at ht2
      subst ht2
      dsimp only
      rw [deletionRun, htemp, deletionLoop_pair]
      by_cases hP : solve m.vars (exprs (removeConstr
            (additiveRun solve m premade).aux
            (triggerIdx solve m premade)).constrs) = Status.FEASIBLE ∨
          solve m.vars (exprs (removeConstr (additiveRun solve m premade).aux
            (triggerIdx solve m premade)).constrs) = Status.OPTIMAL
      · rw [if_pos hP, if_pos ((isFeasStatus_eq_true_iff _).mpr hP)]
        simp [add_constr]
      · rw [if_neg hP, if_neg (by rw [isFeasStatus_eq_true_iff]; exact hP)]
    · rw [deletionRun, htemp, deletionLoop_pair]
      simp
    · rw [run_eq_of_not_feas hne]
  · have hnt : triggerIdx solve m premade = m.constrs.length :=
      Nat.le_antisymm (triggerIdx_le solve m premade) hge
    have hdrop : (additiveRun solve m premade).aux.constrs.drop
        (triggerIdx solve m premade) = [] := by
      apply List.drop_eq_nil_of_le
      rw [additiveRun_constrs, length_handlesFrom, List.length_take]
      simp only [length_exprs]
      omega
    refine ⟨?_, ?_, ?_⟩
    · intro t2 ht2
      rw [hdrop] at ht2
      simp at ht2
    · rw [hdrop, deletionRun_of_no_trigger solve m premade hnt]
      simp
    · rw [run_eq_of_not_feas hne]

/-- Witness for C5 on the two-constraint conflicting scenario. -/
theorem claim_C5_witness :
    isFeasStatus (statusAfterInit solveDec01 (mkModel [0, 1] Status.INFEASIBLE)) = false ∧
    ((∀ t ∈ (additiveRun solveDec01 (mkModel [0, 1] Status.INFEASIBLE) none).aux.constrs.drop
        (triggerIdx solveDec01 (mkModel [0, 1] Status.INFEASIBLE) none),
      (deletionRun solveDec01 (mkModel [0, 1] Status.INFEASIBLE) none).aux.constrs =
        (if isFeasStatus (solveDec01 (mkModel [0, 1] Status.INFEASIBLE).vars
              (exprs (removeConstr
                (additiveRun solveDec01 (mkModel [0, 1] Status.INFEASIBLE) none).aux
                t.1).constrs)) = true
         then (removeConstr
             (additiveRun solveDec01 (mkModel [0, 1] Status.INFEASIBLE) none).aux
             t.1).constrs ++
           [((removeConstr
               (additiveRun solveDec01 (mkModel [0, 1] Status.INFEASIBLE) none).aux
               t.1).nextId, t.2)]
         else (removeConstr
             (additiveRun solveDec01 (mkModel [0, 1] Status.INFEASIBLE) none).aux
             t.1).constrs)) ∧
    (deletionRun solveDec01 (mkModel [0, 1] Status.INFEASIBLE) none).events =
      ((additiveRun solveDec01 (mkModel [0, 1] Status.INFEASIBLE) none).aux.constrs.drop
          (triggerIdx solveDec01 (mkModel [0, 1] Status.INFEASIBLE) none)).map
        (fun t => SolveEvent.auxSolve
          (exprs (removeConstr
            (additiveRun solveDec01 (mkModel [0, 1] Status.INFEASIBLE) none).aux
            t.1).constrs)
          (solveDec01 (mkModel [0, 1] Status.INFEASIBLE).vars
            (exprs (removeConstr
              (additiveRun solveDec01 (mkModel [0, 1] Status.INFEASIBLE) none).aux
              t.1).constrs))) ∧
    (get_iis_additive_deletion_method solveDec01
        (mkModel [0, 1] Status.INFEASIBLE) none).iis =
      (deletionRun solveDec01 (mkModel [0, 1] Status.INFEASIBLE) none).aux.constrs) :=
  ⟨by decide,
    claim_C5 solveDec01 (mkModel [0, 1] Status.INFEASIBLE) none (by decide)⟩

/-- Counterexample to C5 as stated: with the solver that reports OTHER on
the singleton set containing expression 0, the tested trigger constraint is
kept permanently removed although the re-solve status is neither INFEASIBLE
nor INT_INFEASIBLE, so being kept removed is not equivalent to the status
remaining infeasible. -/
theorem claim_C5_counterexample :
    isFeasStatus (statusAfterInit solveOther01 (mkModel [0, 1] Status.INFEASIBLE)) = false ∧
    ¬ (∀ t ∈ (additiveRun solveOther01 (mkModel [0, 1] Status.INFEASIBLE) none).aux.constrs.drop
          (triggerIdx solveOther01 (mkModel [0, 1] Status.INFEASIBLE) none),
        ((t.1 ∈ (get_iis_additive_deletion_method solveOther01
            (mkModel [0, 1] Status.INFEASIBLE) none).iis.map Prod.fst) ↔
          ¬ isInfeasStatus (solveOther01 (mkModel [0, 1] Status.INFEASIBLE).vars
            (exprs (removeConstr
              (additiveRun solveOther01 (mkModel [0, 1] Status.INFEASIBLE) none).aux
              t.1).constrs)) = true)) := by
  decide

/-- C6 (amended): for every infeasible run on which the additive phase finds
a trigger and the trigger is retained in the returned IIS (the returned
expression collection equals the candidate set), removing the trigger (the
last member) and re-solving yields FEASIBLE or OPTIMAL. The original claim
omitted the retention condition; the counterexample below shows a run where
the trigger is permanently removed (the empty set already solves
infeasible), and removing it from the returned IIS does not make the
re-solve feasible. -/
theorem claim_C6 (solve : Solver C) (m : MipModel C)
    (premade : Option (MipModel C))
    (hne : isFeasStatus (statusAfterInit solve m) = false)
    (ht : triggerIdx solve m premade < m.constrs.length)
    (hkeep : exprs (get_iis_additive_deletion_method solve m premade).iis =
      candidateSet solve m premade) :
    isFeasStatus (solve m.vars
      ((exprs (get_iis_additive_deletion_method solve m premade).iis).dropLast)) =
      true := by
  have hiis : exprs (get_iis_additive_deletion_method solve m premade).iis =
      exprs (deletionRun solve m premade).aux.constrs := by
    rw [run_eq_of_not_feas hne]
  have hM2 := deletionRun_exprs_of_trigger solve m premade ht
  have hcl : (exprs m.constrs).length = m.constrs.length := length_exprs _
  by_cases hf : isFeasStatus (solve m.vars
      ((exprs m.constrs).take (triggerIdx solve m premade))) = true
  · rw [hiis, hM2, if_pos hf]
    obtain ⟨t, htake⟩ := take_succ_of_lt (exprs m.constrs)
      (triggerIdx solve m premade) (by omega)
    rw [htake, List.dropLast_concat]
    exact hf
  · exfalso
    rw [hiis, hM2, if_neg hf, candidateSet_eq] at hkeep
    have hlen := congrArg List.length hkeep
    rw [List.length_take, List.length_take] at hlen
    omega

/-- Witness for C6 on the two-constraint conflicting scenario, where the
trigger is retained. -/
theorem claim_C6_witness :
    isFeasStatus (statusAfterInit solveDec01 (mkModel [0, 1] Status.INFEASIBLE)) = false ∧
    triggerIdx solveDec01 (mkModel [0, 1] Status.INFEASIBLE) none <
      (mkModel [0, 1] Status.INFEASIBLE).constrs.length ∧
    exprs (get_iis_additive_deletion_method solveDec01
        (mkModel [0, 1] Status.INFEASIBLE) none).iis =
      candidateSet solveDec01 (mkModel [0, 1] Status.INFEASIBLE) none ∧
    isFeasStatus (solveDec01 (mkModel [0, 1] Status.INFEASIBLE).vars
      ((exprs (get_iis_additive_deletion_method solveDec01
        (mkModel [0, 1] Status.INFEASIBLE) none).iis).dropLast)) = true :=
  ⟨by decide, by decide, by decide,
    claim_C6 solveDec01 (mkModel [0, 1] Status.INFEASIBLE) none
      (by decide) (by decide) (by decide)⟩

/-- Counterexample to C6 as stated: with a solver reporting every set
(including the empty one) infeasible, the single constraint 5 triggers, the
deletion phase keeps it removed, and the returned IIS with the trigger
removed still does not solve to FEASIBLE or OPTIMAL. -/
theorem claim_C6_counterexample :
    isInfeasStatus (statusAfterInit solveAllInfeas (mkModel [5] Status.INFEASIBLE)) = true ∧
    triggerIdx solveAllInfeas (mkModel [5] Status.INFEASIBLE) none <
      (mkModel [5] Status.INFEASIBLE).constrs.length ∧
    isFeasStatus (solveAllInfeas (mkModel [5] Status.INFEASIBLE).vars
      ((exprs (get_iis_additive_deletion_method solveAllInfeas
        (mkModel [5] Status.INFEASIBLE) none).iis).dropLast)) = false := by
  decide

/-- C7 (amended): for every invocation that proceeds past the feasibility
short-circuit, the auxiliary model is populated with exactly one variable
per original variable with identical name, lower bound, upper bound and
kind, starts with zero constraints, has the constant-zero objective,
feasibility search emphasis and presolve enabled; verbosity is silenced
only when the auxiliary model is freshly created, while a caller-supplied
model is cleared back to the fresh default verbosity, which is not silent.
The original claim asserted silent verbosity unconditionally; the
counterexample below refutes it for a caller-supplied model. -/
theorem claim_C7 (solve : Solver C) (m : MipModel C)
    (premade : Option (MipModel C))
    (_hne : isFeasStatus (statusAfterInit solve m) = false) :
    (buildAux m premade).vars = m.vars ∧
    (buildAux m premade).constrs = [] ∧
    (buildAux m premade).objective = Objective.const 0 ∧
    (buildAux m premade).emphasis = SearchEmphasis.FEASIBILITY ∧
    (buildAux m premade).preprocess = 1 ∧
    (premade = none → (buildAux m premade).verbose = 0) ∧
    (∀ pm, premade = some pm → (buildAux m premade).verbose = 1) := by
  refine ⟨buildAux_vars m premade, buildAux_constrs m premade,
    buildAux_objective m premade, buildAux_emphasis m premade,
    buildAux_preprocess m premade, ?_, ?_⟩
  · intro h
    subst h
    exact buildAux_verbose_none m
  · intro pm h
    subst h
    exact buildAux_verbose_some m pm

/-- Witness for C7 on an infeasible model with a freshly created auxiliary
model. -/
theorem claim_C7_witness :
    isFeasStatus (statusAfterInit solveAllInfeas (mkModel [] Status.INFEASIBLE)) = false ∧
    ((buildAux (mkModel [] Status.INFEASIBLE) none).vars =
        (mkModel [] Status.INFEASIBLE).vars ∧
    (buildAux (mkModel [] Status.INFEASIBLE) none).constrs = [] ∧
    (buildAux (mkModel [] Status.INFEASIBLE) none).objective = Objective.const 0 ∧
    (buildAux (mkModel [] Status.INFEASIBLE) none).emphasis =
      SearchEmphasis.FEASIBILITY ∧
    (buildAux (mkModel [] Status.INFEASIBLE) none).preprocess = 1 ∧
    ((none : Option (MipModel Nat)) = none →
      (buildAux (mkModel [] Status.INFEASIBLE) none).verbose = 0) ∧
    (∀ pm, (none : Option (MipModel Nat)) = some pm →
      (buildAux (mkModel [] Status.INFEASIBLE) none).verbose = 1)) :=
  ⟨by decide,
    claim_C7 solveAllInfeas (mkModel [] Status.INFEASIBLE) none (by decide)⟩

/-- Counterexample to C7 as stated: an invocation past the short-circuit
with a caller-supplied auxiliary model does not end up with silent
verbosity after the clear. -/
theorem claim_C7_counterexample :
    isFeasStatus (statusAfterInit solveAllInfeas (mkModel [] Status.INFEASIBLE)) = false ∧
    ¬ (buildAux (mkModel [] Status.INFEASIBLE) (some (freshModel Nat))).verbose = 0 := by
  decide

/-- C8: the function never mutates the variables, constraints, bounds or
objective of the original model: the final state of the original model is
the entry state except possibly for the status field, and the number of
solves of the original model performed by the run is one if its status was
LOADED on entry and zero otherwise. -/
theorem claim_C8 (solve : Solver C) (m : MipModel C)
    (premade : Option (MipModel C)) :
    (get_iis_additive_deletion_method solve m premade).origFinal =
      { m with status := statusAfterInit solve m } ∧
    ((get_iis_additive_deletion_method solve m premade).events.filter
      (fun e => !e.isAux)).length =
      (if m.status = Status.LOADED then 1 else 0) := by
  by_cases hfe : isFeasStatus (statusAfterInit solve m) = true
  · rw [run_eq_of_feas hfe]
    refine ⟨rfl, ?_⟩
    by_cases hl : m.status = Status.LOADED <;> simp [hl, SolveEvent.isAux]
  · have hne : isFeasStatus (statusAfterInit solve m) = false := by
      simpa using hfe
    rw [run_eq_of_not_feas hne]
    refine ⟨rfl, ?_⟩
    have hadd : (additiveRun solve m premade).events.filter
        (fun e => !e.isAux) = [] := by
      rw [List.filter_eq_nil_iff]
      intro e he
      have := additiveLoop_events_isAux solve m.vars (exprs m.constrs)
        (buildAux m premade) e he
      simp [this]
    have hdel : (deletionRun solve m premade).events.filter
        (fun e => !e.isAux) = [] := by
      rw [List.filter_eq_nil_iff]
      intro e he
      have := deletionLoop_events_isAux solve m.vars
        ((additiveRun solve m premade).aux.constrs.drop
          (triggerIdx solve m premade))
        (additiveRun solve m premade).aux e he
      simp [this]
    show ((((if m.status = Status.LOADED then
        [SolveEvent.origSolve (exprs m.constrs) (statusAfterInit solve m)]
        else []) ++ (additiveRun solve m premade).events
        ++ (deletionRun solve m premade).events).filter
          (fun e => !e.isAux)).length =
      (if m.status = Status.LOADED then 1 else 0))
    rw [List.filter_append, List.filter_append, hadd, hdel,
      List.append_nil, List.append_nil]
    by_cases hl : m.status = Status.LOADED <;> simp [hl, SolveEvent.isAux]

/-- C9: for every invocation with a caller-supplied auxiliary model where
the status of the original model (after the initial solve, if one was
needed) is FEASIBLE or OPTIMAL, the supplied auxiliary model is returned
exactly as it was passed in and no auxiliary solve happens: the
short-circuit return occurs before the auxiliary model is ever touched. -/
theorem claim_C9 (solve : Solver C) (m : MipModel C) (pm : MipModel C)
    (hfe : isFeasStatus (statusAfterInit solve m) = true) :
    (get_iis_additive_deletion_method solve m (some pm)).auxFinal = some pm ∧
    ∀ e ∈ (get_iis_additive_deletion_method solve m (some pm)).events,
      e.isAux = false := by
  rw [run_eq_of_feas hfe]
  refine ⟨rfl, ?_⟩
  intro e he
  by_cases hl : m.status = Status.LOADED
  · simp only [hl, if_pos, List.mem_singleton] at he
    subst he
    rfl
  · simp [hl] at he

/-- Witness for C9: a feasible model with a supplied auxiliary model, which
is returned untouched. -/
theorem claim_C9_witness :
    isFeasStatus (statusAfterInit solveFeasAll (mkModel [] Status.FEASIBLE)) = true ∧
    ((get_iis_additive_deletion_method solveFeasAll (mkModel [] Status.FEASIBLE)
        (some (freshModel Nat))).auxFinal = some (freshModel Nat) ∧
    ∀ e ∈ (get_iis_additive_deletion_method solveFeasAll
        (mkModel [] Status.FEASIBLE) (some (freshModel Nat))).events,
      e.isAux = false) :=
  ⟨by decide,
    claim_C9 solveFeasAll (mkModel [] Status.FEASIBLE) (freshModel Nat) (by decide)⟩

/-- C10 (amended): in the embedding the solver is a deterministic function
of the variable list and the constraint sequence; for every run whose
additive phase finds a trigger and where removing the trigger restores a
feasible prefix (the strict prefix before the trigger solves to FEASIBLE or
OPTIMAL), the deletion phase discards nothing: the trigger is re-inserted
and the returned IIS expression list equals the additive-phase candidate
set. The original claim asserted this for every run with a trigger; the
counterexample below shows a deterministic run where the prefix before the
trigger is not feasible (the empty set already solves infeasible), the
trigger is discarded, and the returned IIS differs from the candidate
set. -/
theorem claim_C10 (solve : Solver C) (m : MipModel C)
    (premade : Option (MipModel C))
    (hne : isFeasStatus (statusAfterInit solve m) = false)
    (ht : triggerIdx solve m premade < m.constrs.length)
    (hfeas : isFeasStatus (solve m.vars
      ((exprs m.constrs).take (triggerIdx solve m premade))) = true) :
    exprs (get_iis_additive_deletion_method solve m premade).iis =
      candidateSet solve m premade := by
  have hiis : exprs (get_iis_additive_deletion_method solve m premade).iis =
      exprs (deletionRun solve m premade).aux.constrs := by
    rw [run_eq_of_not_feas hne]
  rw [hiis, deletionRun_exprs_of_trigger solve m premade ht, if_pos hfeas,
    candidateSet_eq]

/-- Witness for C10 on the two-constraint conflicting scenario, where
nothing is discarded. -/
theorem claim_C10_witness :
    isFeasStatus (statusAfterInit solveDec01 (mkModel [0, 1] Status.INFEASIBLE)) = false ∧
    triggerIdx solveDec01 (mkModel [0, 1] Status.INFEASIBLE) none <
      (mkModel [0, 1] Status.INFEASIBLE).constrs.length ∧
    isFeasStatus (solveDec01 (mkModel [0, 1] Status.INFEASIBLE).vars
      ((exprs (mkModel [0, 1] Status.INFEASIBLE).constrs).take
        (triggerIdx solveDec01 (mkModel [0, 1] Status.INFEASIBLE) none))) = true ∧
    exprs (get_iis_additive_deletion_method solveDec01
        (mkModel [0, 1] Status.INFEASIBLE) none).iis =
      candidateSet solveDec01 (mkModel [0, 1] Status.INFEASIBLE) none :=
  ⟨by decide, by decide, by decide,
    claim_C10 solveDec01 (mkModel [0, 1] Status.INFEASIBLE) none
      (by decide) (by decide) (by decide)⟩

/-- Counterexample to C10 as stated: a deterministic solver reporting every
set infeasible makes the single constraint 3 trigger at once; the deletion
phase keeps its removal, so the returned IIS (empty) differs from the
candidate set. -/
theorem claim_C10_counterexample :
    isFeasStatus (statusAfterInit solveAllInfeas (mkModel [3] Status.INFEASIBLE)) = false ∧
    triggerIdx solveAllInfeas (mkModel [3] Status.INFEASIBLE) none <
      (mkModel [3] Status.INFEASIBLE).constrs.length ∧
    ¬ exprs (get_iis_additive_deletion_method solveAllInfeas
        (mkModel [3] Status.INFEASIBLE) none).iis =
      candidateSet solveAllInfeas (mkModel [3] Status.INFEASIBLE) none := by
  decide

end IIS
